import Mathlib

/-
Verification of the test-signal aggregation and prioritization logic of
the build-radiator dashboard generator (scripts/generate_dashboard.py):
the priority ranking function, the two-pass per-repository signal sort,
label deduplication, overall-status selection, organization-level card
ordering, the test-workflow classifier, per-run signal emission, and the
best-effort signal collector.

Python values of type str-or-None are embedded as Option String; Python
string comparison is code-point lexicographic, matching the order on
String; Python list.sort is a stable sort, embedded as a stable insertion
sort (a stable sort by a total preorder is uniquely determined by its
input, so any stable implementation is a faithful model).
-/

/-! ## A stable sort, modelling Python list.sort

Python list.sort is a stable ascending sort by a total preorder; a stable
sort's output is uniquely determined by the comparator and the input, so
we model it by a stable insertion sort: each element is inserted after
every already-placed element that compares less-or-equal to it. -/

open scoped List

/-- One observed test-related check, as built by latest_test_signals:
a dict with keys label, status, conclusion, html_url, updated_at, source. -/
structure Signal where
  label : String
  status : Option String
  conclusion : Option String
  html_url : Option String
  updated_at : Option String
  source : String
deriving DecidableEq

/-- Python. the expression a or b on optional strings: None and the empty
string are falsy, so they fall through to b. -/
def pyOr (a b : Option String) : Option String :=
  match a with
  | none => b
  | some s => if s = "" then b else some s

/-- priority(status, conclusion) from generate_dashboard.py (lines 80-88):
lower = worse. The Python membership tests conclusion in ("failure", ...)
and status in ("in_progress", "queued") are embedded as list membership
over Option String (None is never a member). -/
def priority (status conclusion : Option String) : Nat :=
  if conclusion ∈ [some "failure", some "timed_out", some "cancelled", some "action_required"] then 0
  else if status ∈ [some "in_progress", some "queued"] then 1
  else if conclusion = some "success" then 3
  else 2

/-- Priority of a signal, as used by the sort keys. -/
def sprio (s : Signal) : Nat :=
  priority s.status s.conclusion

/-- Recency key: s.get updated_at or the empty string. -/
def rkey (s : Signal) : String :=
  s.updated_at.getD ""

/-- Python string comparison is lexicographic on code points, which is
the lexicographic order on the underlying character data. Stated on the
data lists so that it evaluates inside the kernel. -/
def pyStrLt (a b : String) : Bool :=
  decide (a.data < b.data)

/-- Non-strict Python string comparison: a is not greater than b. -/
def pyStrLe (a b : String) : Bool :=
  !pyStrLt b a

/-- str.lower restricted to its ASCII action, on the character data. -/
def pyLower (s : String) : String :=
  ⟨s.data.map Char.toLower⟩

/-- str.strip: drop leading and trailing whitespace characters. -/
def pyStrip (s : String) : String :=
  ⟨((s.data.dropWhile Char.isWhitespace).reverse.dropWhile Char.isWhitespace).reverse⟩

/-- Normalized dedup key: label stripped of surrounding whitespace and
lower-cased. -/
def normKey (s : Signal) : String :=
  pyLower (pyStrip s.label)

/-- Insert x after every element y of the accumulator with le y x. -/
def insLe (le : α → α → Bool) (x : α) : List α → List α
  | [] => [x]
  | y :: ys => if le y x then y :: insLe le x ys else x :: y :: ys

/-- Stable ascending sort by the boolean comparator le. -/
def pySort (le : α → α → Bool) (l : List α) : List α :=
  l.foldl (fun acc x => insLe le x acc) []

/-! ## The per-repository signal sort (generate_dashboard.py lines 636-637)

signals.sort(key updated_at or empty, reverse) then
signals.sort(key priority): two stable passes. -/

/-- First pass comparator: descending by recency key (ascending by the
reversed order), nulls as the empty string. -/
def recLe (a b : Signal) : Bool :=
  pyStrLe (rkey b) (rkey a)

/-- Second pass comparator: ascending by priority. -/
def prioLe (a b : Signal) : Bool :=
  decide (sprio a ≤ sprio b)

/-- The two-pass sort of a signal list: newest first, then a stable sort
putting lower priority values first. -/
def sortSignals (l : List Signal) : List Signal :=
  pySort prioLe (pySort recLe l)

/-! ## Deduplication by normalized label (generate_dashboard.py lines 627-633)

A Python dict keyed by label.strip().lower(); a signal replaces the
stored one only when its recency key is strictly greater, and an update
keeps the insertion position while a new key is appended at the end. -/

/-- One step of the dedup dict: locate the entry sharing the normalized
key and keep the more recent signal in place, or append at the end. -/
def dedupIns (acc : List Signal) (s : Signal) : List Signal :=
  match acc with
  | [] => [s]
  | t :: rest =>
    if normKey t = normKey s then (if pyStrLt (rkey t) (rkey s) then s else t) :: rest
    else t :: dedupIns rest s

/-- list(dedup.values()) after inserting every signal in order. -/
def dedup (l : List Signal) : List Signal :=
  l.foldl dedupIns []

/-! ## The overall selector (generate_dashboard.py lines 640-646)

overall = min(signals, key (priority, -(updated_at is not None))) when the
list is non-empty, a synthetic unknown signal otherwise. Python min scans
left to right and replaces the best only on a strict key decrease, so it
returns the first element attaining the minimal key. -/

/-- Second component of the min key: -(updated_at is not None) shifted to
0 for a present timestamp and 1 for a missing one. -/
def nullRank (s : Signal) : Nat :=
  if s.updated_at.isSome then 0 else 1

/-- The overall-selection key of a signal. -/
def selKey (s : Signal) : Nat × Nat :=
  (sprio s, nullRank s)

/-- Strict lexicographic order on min keys, as Python compares tuples. -/
def kLt (p q : Nat × Nat) : Prop :=
  p.1 < q.1 ∨ (p.1 = q.1 ∧ p.2 < q.2)

instance (p q : Nat × Nat) : Decidable (kLt p q) := by
  unfold kLt
  infer_instance

/-- Python min over a non-empty list, head plus folded tail. -/
def pyMinFold (h : Signal) (t : List Signal) : Signal :=
  t.foldl (fun best s => if kLt (selKey s) (selKey best) then s else best) h

/-- The synthetic signal for a repository with no collected signals. -/
def overallUnknown : Signal :=
  { status := some "unknown", conclusion := none, html_url := none,
    updated_at := none, label := "Tests", source := "none" }

/-- The overall selector of latest_test_signals. -/
def overallOf (l : List Signal) : Signal :=
  match l with
  | [] => overallUnknown
  | h :: t => pyMinFold h t

/-! ## Repository cards and their ordering (generate_dashboard.py lines 666-689)

The card dict from build_cards. The display-only dependency tallies are
not part of any sort key and are omitted. has_tests is bool(subtests).
default_branch is None exactly when repository metadata access was
denied, which is how an access-restricted repository surfaces here;
detect_version then reports access denied/not found. The four sort
passes read only repo, overall and has_tests. -/

structure Card where
  repo : String
  default_branch : Option String
  version : String
  version_source : String
  overall : Signal
  subtests : List Signal
  has_tests : Bool
  html_url : String
deriving DecidableEq

/-- Sort key of pass (a): repo name lower-cased, ascending. -/
def nameKey (c : Card) : String :=
  pyLower c.repo

/-- Sort key of pass (b): overall updated_at or empty, descending. -/
def crec (c : Card) : String :=
  c.overall.updated_at.getD ""

/-- Sort key of pass (c): priority of the overall signal, ascending. -/
def cprio (c : Card) : Nat :=
  priority c.overall.status c.overall.conclusion

/-- Sort key of pass (d): 0 if the card has tests else 1, ascending. -/
def cgroup (c : Card) : Nat :=
  if c.has_tests then 0 else 1

def nameLe (a b : Card) : Bool := pyStrLe (nameKey a) (nameKey b)

def cRecLe (a b : Card) : Bool := pyStrLe (crec b) (crec a)

def cPrioLe (a b : Card) : Bool := decide (cprio a ≤ cprio b)

def groupLe (a b : Card) : Bool := decide (cgroup a ≤ cgroup b)

/-- The four stable in-place sorts applied to the card list, in source
order: name, recency (reversed), priority, has-tests group. -/
def sortCards (l : List Card) : List Card :=
  pySort groupLe (pySort cPrioLe (pySort cRecLe (pySort nameLe l)))

/-- An access-restricted repository card: repository metadata access was
denied, so no default branch could be resolved, version detection
reports access denied/not found and no signals were collected. -/
def restrictedCard : Card :=
  { repo := "aaa", default_branch := none, version := "—",
    version_source := "access denied/not found", overall := overallUnknown,
    subtests := [], has_tests := false, html_url := "https://example.invalid/aaa" }

/-- An accessible repository card that simply has no test signals. -/
def plainCard : Card :=
  { repo := "bbb", default_branch := some "main", version := "1.0.0",
    version_source := "pyproject.toml", overall := overallUnknown,
    subtests := [], has_tests := false, html_url := "https://example.invalid/bbb" }

/-! ## The test-workflow classifier (generate_dashboard.py lines 45-47)

TEST_WORKFLOW_RE and NON_TEST_HINT are case-insensitive alternations of
literal substrings; re.search succeeds exactly when one of the literals
occurs in the text. -/

/-- pat occurs as a contiguous run inside l. -/
def chInfix (pat l : List Char) : Bool :=
  match l with
  | [] => pat.isEmpty
  | c :: rest => pat.isPrefixOf (c :: rest) || chInfix pat rest

/-- Case-insensitive substring test: both sides lower-cased. -/
def ciContains (s pat : String) : Bool :=
  chInfix (pyLower pat).data (pyLower s).data

/-- The alternatives of TEST_WORKFLOW_RE. -/
def TEST_WORKFLOW_terms : List String :=
  ["test", "tests", "pytest", "unit", "integration", "e2e", "ci", "TestSuites"]

/-- The alternatives of NON_TEST_HINT. -/
def NON_TEST_terms : List String :=
  ["doc", "docs", "page", "pages", "website", "release", "docker", "publish",
   "deploy", "package", "lint", "format", "codeql"]

/-- TEST_WORKFLOW_RE.search(s) succeeds. -/
def testWorkflowSearch (s : String) : Bool :=
  TEST_WORKFLOW_terms.any (fun pat => ciContains s pat)

/-- NON_TEST_HINT.search(s) succeeds. -/
def nonTestHintSearch (s : String) : Bool :=
  NON_TEST_terms.any (fun pat => ciContains s pat)

/-- The classifier verdict on one name string: included and not
excluded, as applied per name at lines 562-565 and 615. -/
def classifierTestLike (s : String) : Bool :=
  testWorkflowSearch s && !nonTestHintSearch s

/-- The job-level filter of line 584, applied to a job name. -/
def jobTestLike (s : String) : Bool :=
  testWorkflowSearch s && !nonTestHintSearch s

/-- Modelled from the claim wording, not from the source: the inclusion
substring set the specification ascribes to the classifier. -/
def specInclusionTerms : List String :=
  ["test", "tests", "pytest", "unit", "integration", "e2e", "acceptance",
   "regress", "smoke", "playwright", "behave", "bdd", "qa", "automation",
   "testsuite", "cypress", "jest"]

/-- Modelled from the claim wording, not from the source: test-like
according to the specified inclusion set and the exclusion set. -/
def specTestLike (s : String) : Bool :=
  specInclusionTerms.any (fun pat => ciContains s pat) && !nonTestHintSearch s

/-! ## Per-run signal emission (generate_dashboard.py lines 567-603) -/

/-- A workflow listing entry: id plus possibly missing name and path. -/
structure Workflow where
  id : Nat
  name : Option String
  path : Option String
deriving DecidableEq

/-- The latest run of a workflow on the branch. -/
structure Run where
  id : Nat
  status : Option String
  conclusion : Option String
  html_url : Option String
  updated_at : Option String
deriving DecidableEq

/-- A job of a run, with the fields the collector reads. -/
structure Job where
  name : Option String
  status : Option String
  conclusion : Option String
  html_url : Option String
  url : Option String
  completed_at : Option String
  started_at : Option String
deriving DecidableEq

/-- A check-run on the head commit. -/
structure CheckRun where
  name : Option String
  status : Option String
  conclusion : Option String
  html_url : Option String
  details_url : Option String
  completed_at : Option String
  started_at : Option String
deriving DecidableEq

/-- The signal emitted for one matching job (lines 585-592). -/
def jobSignal (run : Run) (j : Job) : Signal :=
  { label := j.name.getD ""
    status := j.status
    conclusion := j.conclusion
    html_url := pyOr j.html_url j.url
    updated_at := pyOr (pyOr j.completed_at j.started_at) run.updated_at
    source := "workflow:job" }

/-- The workflow-level fallback signal (lines 596-603); the label is the
workflow name or Tests when the name is empty. -/
def wfRunSignal (name : String) (run : Run) : Signal :=
  { label := if name = "" then "Tests" else name
    status := run.status
    conclusion := run.conclusion
    html_url := run.html_url
    updated_at := run.updated_at
    source := "workflow" }

/-- The signals one test-like run contributes: one per job passing the
job-level filter, with the workflow-level signal appended only when no
job matched (the added_job flag of lines 581-603). -/
def runSignals (name : String) (run : Run) (jobs : List Job) : List Signal :=
  let r := jobs.foldl
    (fun (p : List Signal × Bool) j =>
      if jobTestLike (j.name.getD "") then (p.1 ++ [jobSignal run j], true) else p)
    ([], false)
  if r.2 then r.1 else r.1 ++ [wfRunSignal name run]

/-! ## The signal collector (generate_dashboard.py lines 546-625)

The workflow listing and per-workflow latest run are data inputs; the
per-run job fetch and the check-run fetch are fallible and modelled as
Except values. The source wraps the job fetch in its own handler that
substitutes an empty job list (lines 575-579), and wraps the whole
check-run block in a handler that keeps the signals gathered so far
(lines 607-625); both handlers are reflected below. -/

/-- The signals contributed by one workflow: skipped unless its name or
path matches TEST_WORKFLOW_RE and neither matches NON_TEST_HINT, skipped
when no run exists on the branch, and otherwise the per-run emission
with a failed job fetch giving the empty job list. -/
def wfContribution (runsOf : Nat → Option Run) (jobsOf : Nat → Except Unit (List Job))
    (wf : Workflow) : List Signal :=
  let name := wf.name.getD ""
  let path := wf.path.getD ""
  if !(testWorkflowSearch name || testWorkflowSearch path) then []
  else if nonTestHintSearch name || nonTestHintSearch path then []
  else
    match runsOf wf.id with
    | none => []
    | some run =>
      runSignals name run
        (match jobsOf run.id with
         | Except.ok js => js
         | Except.error _ => [])

/-- The workflow section of the collector: contributions in listing
order, appended to one growing list. -/
def wfSection (wfs : List Workflow) (runsOf : Nat → Option Run)
    (jobsOf : Nat → Except Unit (List Job)) : List Signal :=
  wfs.foldl (fun acc wf => acc ++ wfContribution runsOf jobsOf wf) []

/-- The signal emitted for one check-run whose name passes the
classifier (lines 613-623). -/
def checkSignal (cr : CheckRun) : Option Signal :=
  let name := cr.name.getD ""
  if classifierTestLike name then
    some { label := name, status := cr.status, conclusion := cr.conclusion,
           html_url := pyOr cr.html_url cr.details_url,
           updated_at := pyOr cr.completed_at cr.started_at,
           source := "checks" }
  else none

/-- The check-run section of the collector. -/
def checkSection (checks : List CheckRun) : List Signal :=
  checks.filterMap checkSignal

/-- The collection phase of latest_test_signals: workflow signals, then
check-run signals for the head commit; a missing head commit or a failed
check-run fetch contributes nothing, and the result is always returned
rather than raised. -/
def collectSignals (wfs : List Workflow) (runsOf : Nat → Option Run)
    (jobsOf : Nat → Except Unit (List Job)) (sha : Option String)
    (checksOf : String → Except Unit (List CheckRun)) : Except Unit (List Signal) :=
  Except.ok (wfSection wfs runsOf jobsOf ++
    (match sha with
     | none => []
     | some h =>
       match checksOf h with
       | Except.ok checks => checkSection checks
       | Except.error _ => []))

/-! ## The failures-first resort in render_dashboards (lines 1066-1070) -/

/-- build_cards (lines 666-677) never puts a test_runs key into a card
dict, so the dict get in render_dashboards returns None for every card. -/
def cardTestRuns (_ : Card) : Option (List Signal) :=
  none

/-- The resort key of render_dashboards: the minimal priority over a
truthy test_runs list, and min of the singleton 3 otherwise. -/
def renderSortKey (c : Card) : Nat :=
  match cardTestRuns c with
  | some (r :: rs) => (rs.map sprio).foldl Nat.min (sprio r)
  | some [] => 3
  | none => 3

/-- The comparator of sorted(repo_cards, key renderSortKey). -/
def renderKeyLe (a b : Card) : Bool :=
  decide (renderSortKey a ≤ renderSortKey b)

/-! ## Concrete instances used by the witnesses -/

/-- A dated signal sharing its normalized label with sigNull. -/
def sigDated : Signal :=
  { label := "Build / Unit Tests", status := some "completed",
    conclusion := some "success", html_url := some "https://example.invalid/1",
    updated_at := some "2024-01-01T00:00:00Z", source := "checks" }

/-- An undated signal whose label differs only in case and padding. -/
def sigNull : Signal :=
  { label := " build / unit tests ", status := some "completed",
    conclusion := none, html_url := none, updated_at := none,
    source := "workflow" }

/-- A failing dated signal. -/
def sigFail : Signal :=
  { label := "CI", status := some "completed", conclusion := some "failure",
    html_url := some "https://example.invalid/2",
    updated_at := some "2024-03-01T00:00:00Z", source := "workflow" }

/-- A concrete latest run. -/
def runEx : Run :=
  { id := 7, status := some "completed", conclusion := some "failure",
    html_url := some "https://example.invalid/run",
    updated_at := some "2024-04-01T00:00:00Z" }

/-- A concrete job passing the job-level filter. -/
def jobEx : Job :=
  { name := some "unit tests (3.11)", status := some "completed",
    conclusion := some "failure", html_url := some "https://example.invalid/job",
    url := none, completed_at := some "2024-04-01T00:05:00Z",
    started_at := some "2024-04-01T00:01:00Z" }

/-- A concrete test-like workflow. -/
def wfEx : Workflow :=
  { id := 1, name := some "CI", path := some ".github/workflows/ci.yml" }

/-- Every workflow has runEx as its latest run. -/
def runsOfEx : Nat → Option Run :=
  fun _ => some runEx

/-- A job fetch that always fails. -/
def jobsOfFail : Nat → Except Unit (List Job) :=
  fun _ => Except.error ()

theorem pyStrLt_iff (a b : String) : pyStrLt a b = true ↔ a < b := by
  simp only [pyStrLt, decide_eq_true_eq]
  exact String.lt_iff_toList_lt.symm

theorem pyStrLe_iff (a b : String) : pyStrLe a b = true ↔ a ≤ b := by
  simp only [pyStrLe, pyStrLt, Bool.not_eq_true', decide_eq_false_iff_not]
  rw [show ((b.data < a.data) ↔ b < a) from String.lt_iff_toList_lt.symm]
  exact not_lt

/-- C1: priority(status, conclusion) is total, maps every pair to exactly
one of 0, 1, 2, 3, and follows the documented case order: 0 when the
conclusion is failure, timed_out, cancelled or action_required; otherwise
1 when the status is in_progress or queued; otherwise 3 when the
conclusion is success; otherwise 2. -/
theorem priority_total_spec (s c : Option String) :
    (priority s c = 0 ∨ priority s c = 1 ∨ priority s c = 2 ∨ priority s c = 3) ∧
    priority s c =
      (if c = some "failure" ∨ c = some "timed_out" ∨ c = some "cancelled" ∨ c = some "action_required" then 0
       else if s = some "in_progress" ∨ s = some "queued" then 1
       else if c = some "success" then 3
       else 2) := by
  constructor
  · unfold priority
    split_ifs <;> simp
  · unfold priority
    simp only [List.mem_cons, List.not_mem_nil, or_false]

theorem mem_insLe {le : α → α → Bool} {x z : α} {acc : List α} :
    z ∈ insLe le x acc ↔ z = x ∨ z ∈ acc := by
  induction acc with
  | nil => simp [insLe]
  | cons y ys ih =>
    simp only [insLe]
    split
    · simp [ih]; tauto
    · simp

theorem insLe_perm (le : α → α → Bool) (x : α) (acc : List α) :
    insLe le x acc ~ x :: acc := by
  induction acc with
  | nil => simp [insLe]
  | cons y ys ih =>
    simp only [insLe]
    split
    · exact (ih.cons y).trans (List.Perm.swap x y ys)
    · exact List.Perm.refl _

theorem pySort_perm (le : α → α → Bool) (l : List α) : pySort le l ~ l := by
  suffices h : ∀ (l acc : List α), l.foldl (fun acc x => insLe le x acc) acc ~ acc ++ l by
    simpa using h l []
  intro l
  induction l with
  | nil => simp
  | cons x rest ih =>
    intro acc
    calc (x :: rest).foldl (fun acc x => insLe le x acc) acc
        = rest.foldl (fun acc x => insLe le x acc) (insLe le x acc) := rfl
      _ ~ insLe le x acc ++ rest := ih _
      _ ~ (x :: acc) ++ rest := (insLe_perm le x acc).append_right rest
      _ ~ acc ++ x :: rest := by
          simpa using (@List.perm_middle _ x acc rest).symm

theorem insLe_pairwise {le : α → α → Bool} {Q : α → α → Prop}
    (htot : ∀ a b, le a b = true ∨ le b a = true)
    (htrans : ∀ a b c, le a b = true → le b c = true → le a c = true)
    {acc : List α} {x : α}
    (hacc : acc.Pairwise (fun a b => le a b = true ∧ (le b a = true → Q a b)))
    (hQ : ∀ y ∈ acc, Q y x) :
    (insLe le x acc).Pairwise (fun a b => le a b = true ∧ (le b a = true → Q a b)) := by
  induction acc with
  | nil => simp [insLe]
  | cons y ys ih =>
    rcases List.pairwise_cons.mp hacc with ⟨hy, hys⟩
    simp only [insLe]
    split
    · rename_i hyx
      refine List.pairwise_cons.mpr ⟨?_, ih hys (fun z hz => hQ z (by simp [hz]))⟩
      intro z hz
      rcases mem_insLe.mp hz with rfl | hz'
      · exact ⟨hyx, fun _ => hQ y (by simp)⟩
      · exact hy z hz'
    · rename_i hyx
      have hxy : le x y = true := by
        rcases htot x y with h | h
        · exact h
        · exact absurd h hyx
      refine List.pairwise_cons.mpr ⟨?_, hacc⟩
      intro z hz
      rcases List.mem_cons.mp hz with rfl | hz'
      · refine ⟨hxy, fun h => absurd h hyx⟩
      · have hyz : le y z = true := (hy z hz').1
        refine ⟨htrans x y z hxy hyz, fun h => absurd (htrans y z x hyz h) hyx⟩

theorem pySort_pairwise {le : α → α → Bool} {Q : α → α → Prop}
    (htot : ∀ a b, le a b = true ∨ le b a = true)
    (htrans : ∀ a b c, le a b = true → le b c = true → le a c = true)
    {l : List α} (hl : l.Pairwise Q) :
    (pySort le l).Pairwise (fun a b => le a b = true ∧ (le b a = true → Q a b)) := by
  suffices h : ∀ (l acc : List α), l.Pairwise Q →
      acc.Pairwise (fun a b => le a b = true ∧ (le b a = true → Q a b)) →
      (∀ x ∈ l, ∀ y ∈ acc, Q y x) →
      (l.foldl (fun acc x => insLe le x acc) acc).Pairwise
        (fun a b => le a b = true ∧ (le b a = true → Q a b)) by
    exact h l [] hl (by simp) (by simp)
  intro l
  induction l with
  | nil => intro acc _ hacc _; simpa using hacc
  | cons x rest ih =>
    intro acc hl hacc hrel
    rcases List.pairwise_cons.mp hl with ⟨hx, hrest⟩
    refine ih (insLe le x acc) hrest
      (insLe_pairwise htot htrans hacc (fun y hy => hrel x (by simp) y hy)) ?_
    intro z hz y hy
    rcases mem_insLe.mp hy with rfl | hy'
    · exact hx z hz
    · exact hrel z (by simp [hz]) y hy'

theorem pySort_sorted {le : α → α → Bool}
    (htot : ∀ a b, le a b = true ∨ le b a = true)
    (htrans : ∀ a b c, le a b = true → le b c = true → le a c = true)
    (l : List α) :
    (pySort le l).Pairwise (fun a b => le a b = true) := by
  have h := pySort_pairwise (Q := fun _ _ => True) htot htrans
    (l := l) (List.pairwise_iff_forall_sublist.mpr (by intro a b _; trivial))
  exact h.imp (fun hab => hab.1)

theorem recLe_total (a b : Signal) : recLe a b = true ∨ recLe b a = true := by
  simp only [recLe, pyStrLe_iff]
  exact le_total (rkey b) (rkey a)

theorem recLe_trans (a b c : Signal) :
    recLe a b = true → recLe b c = true → recLe a c = true := by
  simp only [recLe, pyStrLe_iff]
  intro h1 h2
  exact le_trans h2 h1

theorem prioLe_total (a b : Signal) : prioLe a b = true ∨ prioLe b a = true := by
  simp only [prioLe, decide_eq_true_eq]
  exact le_total (sprio a) (sprio b)

theorem prioLe_trans (a b c : Signal) :
    prioLe a b = true → prioLe b c = true → prioLe a c = true := by
  simp only [prioLe, decide_eq_true_eq]
  exact fun h1 h2 => le_trans h1 h2

/-- C2: the two-pass signal sort permutes the list and orders it so that
a strictly worse (lower) priority always comes first, and among signals
of equal priority the lexicographically greater recency key (updated_at,
null read as the empty string) comes first, hence null-dated signals
come last in their priority bucket. -/
theorem signal_sort_spec (l : List Signal) :
    sortSignals l ~ l ∧
    (sortSignals l).Pairwise (fun a b =>
      sprio a < sprio b ∨ (sprio a = sprio b ∧ rkey b ≤ rkey a)) := by
  constructor
  · exact (pySort_perm prioLe (pySort recLe l)).trans (pySort_perm recLe l)
  · have h1 : (pySort recLe l).Pairwise (fun a b => recLe a b = true) :=
      pySort_sorted recLe_total recLe_trans l
    have h2 := pySort_pairwise prioLe_total prioLe_trans h1
    refine h2.imp ?_
    intro a b hab
    rcases hab with ⟨hle, himp⟩
    simp only [prioLe, decide_eq_true_eq] at hle himp
    rcases Nat.lt_or_ge (sprio a) (sprio b) with hlt | hge
    · exact Or.inl hlt
    · have heq : sprio a = sprio b := le_antisymm hle hge
      have hr : recLe a b = true := himp hge
      rw [recLe, pyStrLe_iff] at hr
      exact Or.inr ⟨heq, hr⟩

theorem mem_dedupIns {acc : List Signal} {s t : Signal}
    (ht : t ∈ dedupIns acc s) : t = s ∨ t ∈ acc := by
  induction acc with
  | nil => simpa [dedupIns] using ht
  | cons y ys ih =>
    simp only [dedupIns] at ht
    split at ht
    · rcases List.mem_cons.mp ht with h | h
      · split at h
        · exact Or.inl h
        · exact Or.inr (by simp [h])
      · exact Or.inr (by simp [h])
    · rcases List.mem_cons.mp ht with h | h
      · exact Or.inr (by simp [h])
      · rcases ih h with h' | h'
        · exact Or.inl h'
        · exact Or.inr (by simp [h'])

theorem dedupIns_reaches_key (acc : List Signal) (s : Signal) :
    ∃ t ∈ dedupIns acc s, normKey t = normKey s := by
  induction acc with
  | nil => exact ⟨s, by simp [dedupIns]⟩
  | cons y ys ih =>
    simp only [dedupIns]
    split
    · rename_i hk
      split
      · exact ⟨s, by simp⟩
      · exact ⟨y, by simp [hk]⟩
    · rcases ih with ⟨t, ht, hkt⟩
      exact ⟨t, by simp [ht], hkt⟩

theorem dedupIns_keeps_keys {acc : List Signal} {z : Signal} (s : Signal)
    (hz : z ∈ acc) : ∃ t ∈ dedupIns acc s, normKey t = normKey z := by
  induction acc with
  | nil => simp at hz
  | cons y ys ih =>
    simp only [dedupIns]
    rcases List.mem_cons.mp hz with rfl | hz'
    · split
      · rename_i hk
        split
        · exact ⟨s, by simp, hk.symm⟩
        · exact ⟨z, by simp⟩
      · exact ⟨z, by simp⟩
    · split
      · exact ⟨z, by simp [hz']⟩
      · rcases ih hz' with ⟨t, ht, hkt⟩
        exact ⟨t, by simp [ht], hkt⟩

theorem dedupIns_pairwise {acc : List Signal} {s : Signal}
    (h : acc.Pairwise (fun a b => normKey a ≠ normKey b)) :
    (dedupIns acc s).Pairwise (fun a b => normKey a ≠ normKey b) := by
  induction acc with
  | nil => simp [dedupIns]
  | cons y ys ih =>
    rcases List.pairwise_cons.mp h with ⟨hy, hys⟩
    simp only [dedupIns]
    split
    · rename_i hk
      refine List.pairwise_cons.mpr ⟨?_, hys⟩
      intro z hz
      have hne := hy z hz
      split
      · exact fun hc => hne (hk.trans hc)
      · exact hne
    · rename_i hk
      refine List.pairwise_cons.mpr ⟨?_, ih hys⟩
      intro z hz
      rcases mem_dedupIns hz with rfl | hz'
      · exact hk
      · exact hy z hz'

theorem dedupIns_max {acc : List Signal} {s t : Signal}
    (h : acc.Pairwise (fun a b => normKey a ≠ normKey b))
    (ht : t ∈ dedupIns acc s) :
    (t ∈ acc ∧ (normKey t = normKey s → rkey s ≤ rkey t)) ∨
    (t = s ∧ ∀ z ∈ acc, normKey z = normKey s → rkey z ≤ rkey s) := by
  induction acc with
  | nil =>
    simp only [dedupIns, List.mem_singleton] at ht
    exact Or.inr ⟨ht, by simp⟩
  | cons y ys ih =>
    rcases List.pairwise_cons.mp h with ⟨hy, hys⟩
    simp only [dedupIns] at ht
    split at ht
    · rename_i hk
      split at ht
      · rename_i hlt
        rcases List.mem_cons.mp ht with rfl | ht'
        · refine Or.inr ⟨rfl, ?_⟩
          intro z hz hkz
          rcases List.mem_cons.mp hz with rfl | hz'
          · exact le_of_lt ((pyStrLt_iff _ _).mp hlt)
          · exact absurd (hk.trans hkz.symm) (hy z hz')
        · refine Or.inl ⟨by simp [ht'], ?_⟩
          intro hkt
          exact absurd (hkt.trans hk.symm).symm (hy t ht')
      · rename_i hlt
        rcases List.mem_cons.mp ht with rfl | ht'
        · exact Or.inl ⟨by simp, fun _ => not_lt.mp (fun hc => hlt ((pyStrLt_iff _ _).mpr hc))⟩
        · refine Or.inl ⟨by simp [ht'], ?_⟩
          intro hkt
          exact absurd (hkt.trans hk.symm).symm (hy t ht')
    · rename_i hk
      rcases List.mem_cons.mp ht with rfl | ht'
      · exact Or.inl ⟨by simp, fun hc => absurd hc hk⟩
      · rcases ih hys ht' with ⟨hmem, hmax⟩ | ⟨rfl, hall⟩
        · exact Or.inl ⟨by simp [hmem], hmax⟩
        · refine Or.inr ⟨rfl, ?_⟩
          intro z hz hkz
          rcases List.mem_cons.mp hz with rfl | hz'
          · exact absurd hkz hk
          · exact hall z hz' hkz

theorem dedup_fold_invariant :
    ∀ (rest acc seen : List Signal),
    acc.Pairwise (fun a b => normKey a ≠ normKey b) →
    (∀ t ∈ acc, t ∈ seen) →
    (∀ t ∈ acc, ∀ u ∈ seen, normKey u = normKey t → rkey u ≤ rkey t) →
    (∀ u ∈ seen, ∃ t ∈ acc, normKey t = normKey u) →
    (rest.foldl dedupIns acc).Pairwise (fun a b => normKey a ≠ normKey b) ∧
    (∀ t ∈ rest.foldl dedupIns acc, t ∈ seen ++ rest) ∧
    (∀ t ∈ rest.foldl dedupIns acc, ∀ u ∈ seen ++ rest,
      normKey u = normKey t → rkey u ≤ rkey t) := by
  intro rest
  induction rest with
  | nil =>
    intro acc seen h1 h2 h3 _
    exact ⟨h1, by simpa using h2, by simpa using h3⟩
  | cons s rest' ih =>
    intro acc seen h1 h2 h3 h4
    have h1' : (dedupIns acc s).Pairwise (fun a b => normKey a ≠ normKey b) :=
      dedupIns_pairwise h1
    have h2' : ∀ t ∈ dedupIns acc s, t ∈ seen ++ [s] := by
      intro t ht
      rcases mem_dedupIns ht with rfl | ht'
      · simp
      · simp [h2 t ht']
    have h3' : ∀ t ∈ dedupIns acc s, ∀ u ∈ seen ++ [s],
        normKey u = normKey t → rkey u ≤ rkey t := by
      intro t ht u hu hku
      rcases dedupIns_max h1 ht with ⟨htacc, hmax⟩ | ⟨rfl, hall⟩
      · rcases List.mem_append.mp hu with hu' | hu'
        · exact h3 t htacc u hu' hku
        · have : u = s := by simpa using hu'
          subst this
          exact hmax hku.symm
      · rcases List.mem_append.mp hu with hu' | hu'
        · rcases h4 u hu' with ⟨z, hz, hkz⟩
          have hzu : rkey u ≤ rkey z := h3 z hz u hu' hkz.symm
          have hzs : rkey z ≤ rkey t := hall z hz (hkz.trans hku)
          exact le_trans hzu hzs
        · have : u = t := by simpa using hu'
          subst this
          exact le_refl _
    have h4' : ∀ u ∈ seen ++ [s], ∃ t ∈ dedupIns acc s, normKey t = normKey u := by
      intro u hu
      rcases List.mem_append.mp hu with hu' | hu'
      · rcases h4 u hu' with ⟨z, hz, hkz⟩
        rcases dedupIns_keeps_keys s hz with ⟨t, ht, hkt⟩
        exact ⟨t, ht, hkt.trans hkz⟩
      · have hus : u = s := by simpa using hu'
        rw [hus]
        exact dedupIns_reaches_key acc s
    have := ih (dedupIns acc s) (seen ++ [s]) h1' h2' h3' h4'
    simpa [List.append_assoc] using this

/-- C3: after deduplication no two surviving signals share a normalized
label, every survivor occurred in the input, and a survivor's recency key
(updated_at with null read as the empty string) is maximal among all
input signals sharing its normalized label — so a null-dated signal never
survives over a dated one with the same label. -/
theorem dedup_unique_max (l : List Signal) :
    (dedup l).Pairwise (fun a b => normKey a ≠ normKey b) ∧
    ∀ s ∈ dedup l, s ∈ l ∧ ∀ t ∈ l, normKey t = normKey s → rkey t ≤ rkey s := by
  have h := dedup_fold_invariant l [] [] (by simp) (by simp) (by simp) (by simp)
  rcases h with ⟨hp, hm, hmax⟩
  refine ⟨hp, ?_⟩
  intro s hs
  exact ⟨by simpa using hm s hs, fun t ht hk => hmax s hs t (by simpa using ht) hk⟩

theorem kLt_shift {p q r : Nat × Nat} (h1 : kLt p q) (h2 : ¬ kLt r q) : kLt p r := by
  unfold kLt at h1 h2 ⊢
  omega

theorem kLt_trans {p q r : Nat × Nat} (h1 : kLt p q) (h2 : kLt q r) : kLt p r := by
  unfold kLt at h1 h2 ⊢
  omega

theorem pyMinFold_first (t : List Signal) :
    ∀ h : Signal, ∃ l₁ l₂, h :: t = l₁ ++ pyMinFold h t :: l₂ ∧
      (∀ z ∈ l₁, kLt (selKey (pyMinFold h t)) (selKey z)) ∧
      (∀ z ∈ l₂, ¬ kLt (selKey z) (selKey (pyMinFold h t))) := by
  induction t with
  | nil =>
    intro h
    exact ⟨[], [], rfl, by simp, by simp⟩
  | cons s rest ih =>
    intro h
    by_cases hlt : kLt (selKey s) (selKey h)
    · have hstep : pyMinFold h (s :: rest) = pyMinFold s rest := by
        simp [pyMinFold, hlt]
      rcases ih s with ⟨l₁, l₂, hdec, hbefore, hafter⟩
      refine ⟨h :: l₁, l₂, ?_, ?_, ?_⟩
      · simpa [hstep] using congrArg (h :: ·) hdec
      · intro z hz
        rcases List.mem_cons.mp hz with rfl | hz'
        · have hmin : kLt (selKey (pyMinFold s rest)) (selKey s) ∨
              pyMinFold s rest = s := by
            rcases l₁ with _ | ⟨a, as⟩
            · simp only [List.nil_append] at hdec
              exact Or.inr (by injection hdec with h1 _; exact h1.symm)
            · have ha : a = s := by injection hdec with h1 _; exact h1.symm
              subst ha
              exact Or.inl (hbefore a (by simp))
          rw [hstep]
          rcases hmin with hm | hm
          · exact kLt_trans hm hlt
          · rw [hm]; exact hlt
        · rw [hstep]; exact hbefore z hz'
      · intro z hz
        rw [hstep]
        exact hafter z hz
    · have hstep : pyMinFold h (s :: rest) = pyMinFold h rest := by
        simp [pyMinFold, hlt]
      rcases ih h with ⟨l₁, l₂, hdec, hbefore, hafter⟩
      rcases l₁ with _ | ⟨a, as⟩
      · simp only [List.nil_append] at hdec
        have hpair := List.cons_eq_cons.mp hdec
        have hh : pyMinFold h rest = h := hpair.1.symm
        have hl₂ : rest = l₂ := hpair.2
        refine ⟨[], s :: rest, by simp [hstep, hh], by simp, ?_⟩
        intro z hz
        rw [hstep, hh]
        rcases List.mem_cons.mp hz with rfl | hz'
        · exact hlt
        · rw [hl₂] at hz'
          have := hafter z hz'
          rw [hh] at this
          exact this
      · have hpair := List.cons_eq_cons.mp (by simpa using hdec)
        have ha : h = a := hpair.1
        have hrest : rest = as ++ pyMinFold h rest :: l₂ := hpair.2
        have hma : kLt (selKey (pyMinFold h rest)) (selKey h) := by
          have := hbefore a (by simp)
          rw [← ha] at this
          exact this
        refine ⟨h :: s :: as, l₂, ?_, ?_, ?_⟩
        · rw [hstep]
          simpa using congrArg (fun l => h :: s :: l) hrest
        · intro z hz
          rcases List.mem_cons.mp hz with rfl | hz'
          · rw [hstep]; exact hma
          · rcases List.mem_cons.mp hz' with rfl | hz''
            · rw [hstep]
              exact kLt_shift hma hlt
            · rw [hstep]
              exact hbefore z (by simp [hz''])
        · intro z hz
          rw [hstep]
          exact hafter z hz

/-- C4: on the empty list the overall selector returns exactly the
synthetic signal with status unknown, null conclusion, url and
updated_at, label Tests and source none; on a non-empty list it returns
the first element in list order attaining the minimal key (priority,
then preferring a present updated_at), hence an element minimizing
priority with the documented tie-breaks. -/
theorem overall_selector_spec (l : List Signal) :
    overallOf ([] : List Signal) =
      { status := some "unknown", conclusion := none, html_url := none,
        updated_at := none, label := "Tests", source := "none" } ∧
    (l ≠ [] →
      overallOf l ∈ l ∧
      (∀ u ∈ l, sprio (overallOf l) ≤ sprio u) ∧
      (∀ u ∈ l, ¬ kLt (selKey u) (selKey (overallOf l))) ∧
      ∃ l₁ l₂, l = l₁ ++ overallOf l :: l₂ ∧
        (∀ z ∈ l₁, kLt (selKey (overallOf l)) (selKey z)) ∧
        (∀ z ∈ l₂, ¬ kLt (selKey z) (selKey (overallOf l)))) := by
  refine ⟨rfl, ?_⟩
  intro hne
  rcases l with _ | ⟨h, t⟩
  · exact absurd rfl hne
  have hov : overallOf (h :: t) = pyMinFold h t := rfl
  rcases pyMinFold_first t h with ⟨l₁, l₂, hdec, hbefore, hafter⟩
  have hmin : ∀ u ∈ h :: t, ¬ kLt (selKey u) (selKey (pyMinFold h t)) := by
    intro u hu
    rw [hdec] at hu
    rcases List.mem_append.mp hu with hu' | hu'
    · have hlt := hbefore u hu'
      unfold kLt at hlt ⊢
      omega
    · rcases List.mem_cons.mp hu' with rfl | hu''
      · unfold kLt
        omega
      · exact hafter u hu''
  refine ⟨?_, ?_, ?_, ?_⟩
  · rw [hov, hdec]
    exact List.mem_append.mpr (Or.inr (by simp))
  · intro u hu
    have := hmin u hu
    rw [hov]
    unfold kLt selKey at this
    simp only at this
    omega
  · rw [hov]
    exact hmin
  · rw [hov]
    exact ⟨l₁, l₂, hdec, hbefore, hafter⟩

theorem nameLe_total (a b : Card) : nameLe a b = true ∨ nameLe b a = true := by
  simp only [nameLe, pyStrLe_iff]
  exact le_total _ _

theorem nameLe_trans (a b c : Card) :
    nameLe a b = true → nameLe b c = true → nameLe a c = true := by
  simp only [nameLe, pyStrLe_iff]
  exact le_trans

theorem cRecLe_total (a b : Card) : cRecLe a b = true ∨ cRecLe b a = true := by
  simp only [cRecLe, pyStrLe_iff]
  exact le_total _ _

theorem cRecLe_trans (a b c : Card) :
    cRecLe a b = true → cRecLe b c = true → cRecLe a c = true := by
  simp only [cRecLe, pyStrLe_iff]
  intro h1 h2
  exact le_trans h2 h1

theorem cPrioLe_total (a b : Card) : cPrioLe a b = true ∨ cPrioLe b a = true := by
  simp only [cPrioLe, decide_eq_true_eq]
  exact le_total _ _

theorem cPrioLe_trans (a b c : Card) :
    cPrioLe a b = true → cPrioLe b c = true → cPrioLe a c = true := by
  simp only [cPrioLe, decide_eq_true_eq]
  exact le_trans

theorem groupLe_total (a b : Card) : groupLe a b = true ∨ groupLe b a = true := by
  simp only [groupLe, decide_eq_true_eq]
  exact le_total _ _

theorem groupLe_trans (a b c : Card) :
    groupLe a b = true → groupLe b c = true → groupLe a c = true := by
  simp only [groupLe, decide_eq_true_eq]
  exact le_trans

/-- C5 (as amended): the card order is the stable multi-key sort applied
in the exact source sequence name ascending, overall updated_at
descending, overall priority ascending, group rank ascending with rank 0
for cards with tests and 1 for cards without; the result is a
permutation ordered by group, then priority, then recency (newest
first), then case-folded name. No separate rank exists for
access-restricted cards. -/
theorem card_sort_spec (l : List Card) :
    sortCards l ~ l ∧
    (sortCards l).Pairwise (fun a b =>
      cgroup a < cgroup b ∨ (cgroup a = cgroup b ∧
        (cprio a < cprio b ∨ (cprio a = cprio b ∧
          (crec b < crec a ∨ (crec b = crec a ∧ nameKey a ≤ nameKey b)))))) := by
  constructor
  · exact ((((pySort_perm _ _).trans (pySort_perm _ _)).trans (pySort_perm _ _)).trans
      (pySort_perm _ _))
  · have h1 : (pySort nameLe l).Pairwise (fun a b => nameLe a b = true) :=
      pySort_sorted nameLe_total nameLe_trans l
    have h2 := pySort_pairwise cRecLe_total cRecLe_trans h1
    have h3 := pySort_pairwise cPrioLe_total cPrioLe_trans h2
    have h4 := pySort_pairwise groupLe_total groupLe_trans h3
    refine h4.imp ?_
    intro a b hab
    simp only [groupLe, cPrioLe, cRecLe, nameLe, decide_eq_true_eq, pyStrLe_iff] at hab
    rcases hab with ⟨hg, hrest⟩
    rcases lt_or_eq_of_le hg with h | h
    · exact Or.inl h
    right
    refine ⟨h, ?_⟩
    rcases hrest (le_of_eq h.symm) with ⟨hp, hrest2⟩
    rcases lt_or_eq_of_le hp with h' | h'
    · exact Or.inl h'
    right
    refine ⟨h', ?_⟩
    rcases hrest2 (le_of_eq h'.symm) with ⟨hr, hrest3⟩
    rcases lt_or_eq_of_le hr with h'' | h''
    · exact Or.inl h''
    exact Or.inr ⟨h'', hrest3 (le_of_eq h''.symm)⟩

/-- C5 counterexample: the sort has no group rank 2 for access-restricted
cards, so a restricted card does not sink below all others: here the
restricted card (no resolvable default branch) sorts before an
accessible no-tests card, refuting the claimed placement of restricted
repositories after all others. -/
theorem card_sort_restricted_not_last :
    sortCards [restrictedCard, plainCard] = [restrictedCard, plainCard] ∧
    restrictedCard.default_branch = none ∧
    plainCard.default_branch = some "main" := by
  refine ⟨by decide, rfl, rfl⟩

/-- C6 counterexample: the code inclusion set differs from the claimed
one in both directions. A name containing only smoke is test-like per
the claim but not per the code, and the bare name ci is test-like per
the code but not per the claim. -/
theorem classifier_inclusion_diverges :
    specTestLike "Smoke Suite" = true ∧ classifierTestLike "Smoke Suite" = false ∧
    classifierTestLike "ci" = true ∧ specTestLike "ci" = false := by
  refine ⟨by decide, by decide, by decide, by decide⟩

/-- C6 (as amended): a workflow name or path string is judged test-like
iff it contains, case-insensitively, at least one of the inclusion
substrings test, tests, pytest, unit, integration, e2e, ci, TestSuites
and none of the exclusion substrings doc, docs, page, pages, website,
release, docker, publish, deploy, package, lint, format, codeql. -/
theorem classifier_spec (s : String) :
    classifierTestLike s = true ↔
      ((∃ pat ∈ TEST_WORKFLOW_terms, ciContains s pat = true) ∧
       (∀ pat ∈ NON_TEST_terms, ciContains s pat = false)) := by
  simp [classifierTestLike, testWorkflowSearch, nonTestHintSearch,
    List.any_eq_true, Bool.not_eq_true', List.any_eq_false]

/-- C7 counterexample: job names containing upload, build, cache or setup
together with a test keyword pass the job-level filter, refuting the
claim that an additional job-level exclusion set rejects them. -/
theorem job_filter_accepts_infra_words :
    jobTestLike "upload test results" = true ∧
    jobTestLike "build-and-test" = true ∧
    jobTestLike "test cache setup" = true := by
  refine ⟨by decide, by decide, by decide⟩

/-- C7 (as amended): the job-level filter applies exactly the same
inclusion and exclusion patterns as the per-name workflow filter; no
stricter job-level exclusion set exists in the code. -/
theorem job_filter_eq_workflow_filter (s : String) :
    jobTestLike s = (testWorkflowSearch s && !nonTestHintSearch s) ∧
    jobTestLike s = classifierTestLike s :=
  ⟨rfl, rfl⟩

theorem runSignals_foldl (run : Run) (jobs : List Job) :
    ∀ (acc : List Signal) (flag : Bool),
    jobs.foldl
      (fun (p : List Signal × Bool) j =>
        if jobTestLike (j.name.getD "") then (p.1 ++ [jobSignal run j], true) else p)
      (acc, flag) =
    (acc ++ (jobs.filter (fun j => jobTestLike (j.name.getD ""))).map (jobSignal run),
     flag || jobs.any (fun j => jobTestLike (j.name.getD ""))) := by
  induction jobs with
  | nil =>
    intro acc flag
    simp
  | cons j rest ih =>
    intro acc flag
    by_cases hj : jobTestLike (j.name.getD "") = true
    · simp [hj, ih, List.filter_cons, List.any_cons]
    · simp [hj, ih, List.filter_cons, List.any_cons]

/-- C8: for a collected test-like run, when at least one job passes the
job-level filter the run contributes exactly one signal per passing job,
all with source workflow:job and no workflow-level signal; when no job
passes (in particular when the job fetch yielded nothing) the run
contributes exactly the one workflow-level fallback signal, so a
test-like run is never dropped. -/
theorem run_signal_emission (name : String) (run : Run) (jobs : List Job) :
    (jobs.filter (fun j => jobTestLike (j.name.getD "")) = [] →
      runSignals name run jobs = [wfRunSignal name run] ∧
      (wfRunSignal name run).source = "workflow") ∧
    (jobs.filter (fun j => jobTestLike (j.name.getD "")) ≠ [] →
      runSignals name run jobs =
        (jobs.filter (fun j => jobTestLike (j.name.getD ""))).map (jobSignal run) ∧
      ∀ sg ∈ runSignals name run jobs, sg.source = "workflow:job") := by
  have hfold := runSignals_foldl run jobs [] false
  constructor
  · intro hemp
    have hany : jobs.any (fun j => jobTestLike (j.name.getD "")) = false := by
      rw [List.any_eq_false]
      intro j hj
      exact (List.filter_eq_nil_iff.mp hemp) j hj
    refine ⟨?_, rfl⟩
    unfold runSignals
    rw [hfold, hemp, hany]
    simp
  · intro hne
    have hany : jobs.any (fun j => jobTestLike (j.name.getD "")) = true := by
      rcases List.exists_mem_of_ne_nil _ hne with ⟨j, hj⟩
      rcases List.mem_filter.mp hj with ⟨hmem, hpass⟩
      exact List.any_eq_true.mpr ⟨j, hmem, hpass⟩
    have hout : runSignals name run jobs =
        (jobs.filter (fun j => jobTestLike (j.name.getD ""))).map (jobSignal run) := by
      unfold runSignals
      rw [hfold, hany]
      simp
    refine ⟨hout, ?_⟩
    intro sg hsg
    rw [hout] at hsg
    rcases List.mem_map.mp hsg with ⟨j, _, rfl⟩
    rfl

/-- C9: collection is best-effort. It always returns an ok value whose
prefix is the workflow-section signals, so a check-run fetch failure
never discards signals gathered before it; and replacing every failed
job fetch by an empty job list leaves the result unchanged, so a job
fetch failure degrades to the workflow-level fallback instead of
propagating. -/
theorem collector_best_effort (wfs : List Workflow) (runsOf : Nat → Option Run)
    (jobsOf : Nat → Except Unit (List Job)) (sha : Option String)
    (checksOf : String → Except Unit (List CheckRun)) :
    (∃ rest, collectSignals wfs runsOf jobsOf sha checksOf =
      Except.ok (wfSection wfs runsOf jobsOf ++ rest)) ∧
    ((∀ h, checksOf h = Except.error ()) →
      collectSignals wfs runsOf jobsOf sha checksOf =
        Except.ok (wfSection wfs runsOf jobsOf)) ∧
    (∀ jobsOf' : Nat → Except Unit (List Job),
      (∀ i, jobsOf' i = match jobsOf i with
        | Except.error _ => Except.ok []
        | x => x) →
      collectSignals wfs runsOf jobsOf' sha checksOf =
        collectSignals wfs runsOf jobsOf sha checksOf) := by
  refine ⟨⟨_, rfl⟩, ?_, ?_⟩
  · intro hfail
    unfold collectSignals
    cases sha with
    | none => simp
    | some h => simp [hfail h]
  · intro jobsOf' hrec
    have hjobs : ∀ i, (match jobsOf' i with
        | Except.ok js => js
        | Except.error _ => ([] : List Job)) =
        (match jobsOf i with
         | Except.ok js => js
         | Except.error _ => []) := by
      intro i
      rw [hrec i]
      cases jobsOf i with
      | ok js => rfl
      | error u => rfl
    have hcontrib : ∀ wf, wfContribution runsOf jobsOf' wf =
        wfContribution runsOf jobsOf wf := by
      intro wf
      unfold wfContribution
      simp only [hjobs]
    have hw : wfSection wfs runsOf jobsOf' = wfSection wfs runsOf jobsOf := by
      unfold wfSection
      have hfun : (fun (acc : List Signal) wf => acc ++ wfContribution runsOf jobsOf' wf) =
          (fun (acc : List Signal) wf => acc ++ wfContribution runsOf jobsOf wf) := by
        funext acc wf
        rw [hcontrib wf]
      rw [hfun]
    unfold collectSignals
    rw [hw]

theorem insLe_all_true {le : α → α → Bool} (hle : ∀ a b, le a b = true)
    (x : α) (acc : List α) : insLe le x acc = acc ++ [x] := by
  induction acc with
  | nil => rfl
  | cons y ys ih => simp [insLe, hle, ih]

theorem pySort_all_true {le : α → α → Bool} (hle : ∀ a b, le a b = true)
    (l : List α) : pySort le l = l := by
  suffices h : ∀ (l acc : List α), l.foldl (fun acc x => insLe le x acc) acc = acc ++ l by
    simpa using h l []
  intro l
  induction l with
  | nil => simp
  | cons x rest ih =>
    intro acc
    calc (x :: rest).foldl (fun acc x => insLe le x acc) acc
        = rest.foldl (fun acc x => insLe le x acc) (insLe le x acc) := rfl
      _ = insLe le x acc ++ rest := ih _
      _ = acc ++ x :: rest := by rw [insLe_all_true hle]; simp

/-- C10: every card from build_cards lacks a test_runs entry, so the
resort key is the constant 3 and the failures-first resort in
render_dashboards returns the cards exactly in build_cards order. -/
theorem render_resort_identity (cards : List Card) :
    (∀ c : Card, renderSortKey c = 3) ∧
    pySort renderKeyLe cards = cards := by
  constructor
  · intro c
    rfl
  · apply pySort_all_true
    intro a b
    rfl

theorem dedup_unique_max_witness :
    sigDated ∈ [sigDated, sigNull] ∧ rkey sigNull ≤ rkey sigDated := by
  have h := (dedup_unique_max [sigDated, sigNull]).2 sigDated (by decide)
  exact ⟨h.1, h.2 sigNull (by decide) (by decide)⟩

theorem overall_selector_spec_witness :
    overallOf [sigDated, sigFail] ∈ [sigDated, sigFail] ∧
    sprio (overallOf [sigDated, sigFail]) ≤ sprio sigDated := by
  have h := (overall_selector_spec [sigDated, sigFail]).2 (by decide)
  exact ⟨h.1, h.2.1 sigDated (by decide)⟩

theorem run_signal_emission_witness :
    runSignals "CI Tests" runEx [jobEx] = [jobSignal runEx jobEx] ∧
    (jobSignal runEx jobEx).source = "workflow:job" := by
  have h := (run_signal_emission "CI Tests" runEx [jobEx]).2 (by decide)
  exact ⟨h.1.trans (by decide), by decide⟩

theorem collector_best_effort_witness :
    collectSignals [wfEx] runsOfEx jobsOfFail (some "headsha")
        (fun _ => Except.error ()) =
      Except.ok (wfSection [wfEx] runsOfEx jobsOfFail) ∧
    wfSection [wfEx] runsOfEx jobsOfFail = [wfRunSignal "CI" runEx] := by
  refine ⟨(collector_best_effort [wfEx] runsOfEx jobsOfFail (some "headsha")
    (fun _ => Except.error ())).2.1 (fun h => rfl), by decide⟩
